import Mathlib

/-!
# vm-manager-server: client registry and certificate paths

A shallow embedding of `connection/client.go` and of the file-system side of
`cert/cert.go`.

Modelling conventions.

* A Go function becomes a Lean function into `Run α`: the list of observable
  effects it performs, in program order, together with its result (a value, a
  panic, or "blocked for ever in a read").
* `[]*Client` is a Go slice: a backing array of nullable pointers plus a
  length.  `append`, slicing and `range` follow the Go language specification
  (in-place writes while capacity suffices, bounds checks on slicing, `range`
  evaluating its operand once).
* A `*Client` is modelled by the record it points to (`none` is the nil
  pointer).  No function in `client.go` writes to a record after creating it.
* `sync.Mutex` is modelled by the effects `lock` and `unlock`; a `go`
  statement by the effect `spawn`.
-/

namespace connection

/-- Identity of a live `net.Conn` value. -/
abbrev Conn := Nat

/-- The Go struct `ClientDetails`. -/
structure ClientDetails where
  Name : String
  Serial : String
  Fingerprint : String
deriving DecidableEq, Repr

/-- The Go struct `Client`.  The element types `shared.StorageResult` and
`shared.SystemResult` are declared in another package and are parameters. -/
structure Client (StorageResult SystemResult : Type) extends ClientDetails where
  Conn : Conn
  Storage : List StorageResult
  System : SystemResult
deriving DecidableEq, Repr

/-- Reasons for which a call does not return normally. -/
inductive Stop where
  /-- A field is read through a nil `*Client`. -/
  | nilDeref
  /-- A slice expression is out of range. -/
  | sliceBounds
  /-- An index expression is out of range. -/
  | indexRange
  /-- The goroutine waits in a read that never completes. -/
  | blocked
deriving DecidableEq, Repr

/-- Observable effects, one per executed statement that has one. -/
inductive Effect where
  /-- The call `ac.clientLock.Lock()`. -/
  | lock
  /-- The call `ac.clientLock.Unlock()`. -/
  | unlock
  /-- An evaluation of the field `ac.Clients`. -/
  | readClients
  /-- An assignment to the field `ac.Clients`. -/
  | writeClients
  /-- An evaluation of the field `ac.WaitingClients`. -/
  | readWaiting
  /-- An evaluation of the field `ac.AcceptedClients`. -/
  | readAccepted
  /-- The call `fmt.Fprint(conn, s)`. -/
  | write (conn : Conn) (s : String)
  /-- The call `conn.Close()`. -/
  | close (conn : Conn)
  /-- The statement `go ac.processCell(&newClient)`. -/
  | spawn (name : String) (conn : Conn)
  /-- The call `log.Printf`, with the formatted message. -/
  | log (msg : String)
  /-- The call `fmt.Println`, with the printed text. -/
  | print (msg : String)
  /-- One call `reader.ReadString(10)` on the reader of `conn`. -/
  | read (conn : Conn)
  /-- The call `client.processEvent(line)`. -/
  | processEvent (name : String) (conn : Conn) (line : String)
deriving DecidableEq, Repr

deriving instance DecidableEq for Except

/-- The effects performed so far and how the computation ended. -/
structure Run (α : Type) where
  trace : List Effect
  result : Except Stop α
deriving DecidableEq

namespace Run

/-- Return a value without any effect. -/
def ret {α : Type} (a : α) : Run α := ⟨[], .ok a⟩

/-- Sequencing: the second computation runs only if the first returned. -/
def andThen {α β : Type} (x : Run α) (f : α → Run β) : Run β :=
  match x.result with
  | .ok a => ⟨x.trace ++ (f a).trace, (f a).result⟩
  | .error e => ⟨x.trace, .error e⟩

/-- Perform one effect. -/
def emit (e : Effect) : Run Unit := ⟨[e], .ok ()⟩

/-- Stop without returning. -/
def stop {α : Type} (s : Stop) : Run α := ⟨[], .error s⟩

/-- A Go `defer` of a call whose only behaviour is the effect `e`: it runs when
the body returns and also when the body panics. -/
def deferring {α : Type} (e : Effect) (body : Run α) : Run α :=
  ⟨body.trace ++ [e], body.result⟩

end Run

instance : Monad Run where
  pure := Run.ret
  bind := Run.andThen

/-- A Go slice whose first element is the first slot of its backing array:
`arr` is the backing array (its length is the capacity), `len` the length. -/
structure Slice (α : Type) where
  arr : List α
  len : Nat
deriving DecidableEq, Repr

namespace Slice

/-- The built-in `cap(s)`. -/
def cap {α : Type} (s : Slice α) : Nat := s.arr.length

/-- The elements `s[0], ..., s[len(s)-1]`. -/
def elems {α : Type} (s : Slice α) : List α := s.arr.take s.len

/-- The slice expression `s[:i]`; it panics unless `i <= cap(s)`. -/
def upTo {α : Type} (s : Slice α) (i : Nat) : Run (Slice α) :=
  if i ≤ s.cap then Run.ret ⟨s.arr, i⟩ else Run.stop .sliceBounds

/-- The elements of the slice expression `s[i:]`; it panics unless
`i <= len(s)`. -/
def elemsFrom {α : Type} (s : Slice α) (i : Nat) : Run (List α) :=
  if i ≤ s.len then Run.ret (s.elems.drop i) else Run.stop .sliceBounds

/-- The built-in `append(s, xs...)`.  While the capacity suffices the elements
are written into the backing array of `s` (the flag is `true`); otherwise a
new array is allocated that holds the elements followed by `spare` zeroed
slots, the number of which is chosen by the Go runtime. -/
def append {α : Type} (spare : Nat) (zero : α) (s : Slice α) (xs : List α) :
    Slice α × Bool :=
  if s.len + xs.length ≤ s.cap then
    (⟨s.arr.take s.len ++ xs ++ s.arr.drop (s.len + xs.length), s.len + xs.length⟩, true)
  else
    (⟨s.arr.take s.len ++ xs ++ List.replicate spare zero, s.len + xs.length⟩, false)

end Slice

/-- The Go struct `allClients`; the mutex `clientLock` has no data. -/
structure allClients (StorageResult SystemResult : Type) where
  Clients : Slice (Option (Client StorageResult SystemResult))
  AcceptedClients : List ClientDetails
  WaitingClients : List ClientDetails
deriving DecidableEq, Repr

section registry

variable {StorageResult SystemResult : Type}

/-- The scan `for _, client := range ac.Clients` of `AddClient`, over the
elements of the slice; the result tells whether the name was found, in which
case the rejection line has been written and the connection closed. -/
def AddClient.scan (name : String) (conn : Conn) :
    List (Option (Client StorageResult SystemResult)) → Run Bool
  | [] => Run.ret false
  | none :: _ => Run.stop .nilDeref
  | some client :: rest =>
    if client.Name = name then do
      Run.emit (.write conn "Name already exists\n")
      Run.emit (.close conn)
      Run.ret true
    else AddClient.scan name conn rest

/-- The method `AddClient`.  `grow` gives the number of spare slots the
runtime allocates when `append` must reallocate a slice of the given
capacity; the result is the registry after the call. -/
def AddClient [Inhabited SystemResult] (grow : Nat → Nat)
    (ac : allClients StorageResult SystemResult) (name serial : String) (conn : Conn) :
    Run (allClients StorageResult SystemResult) := do
  Run.emit .lock
  Run.deferring .unlock do
    Run.emit .readClients
    let found ← AddClient.scan name conn ac.Clients.elems
    if found then Run.ret ac
    else do
      let newClient : Client StorageResult SystemResult :=
        { Name := name, Serial := serial, Fingerprint := "", Conn := conn,
          Storage := [], System := default }
      Run.emit (.log ("Adding client " ++ name))
      Run.emit .readClients
      let clients := (Slice.append (grow ac.Clients.cap) none ac.Clients [some newClient]).1
      Run.emit .writeClients
      Run.emit (.spawn newClient.Name newClient.Conn)
      Run.emit (.write newClient.Conn "STORAGE_INFO\n")
      Run.emit (.write newClient.Conn "SYSTEM_INFO\n")
      Run.ret { ac with Clients := clients }

/-- State of the loop of `RemoveClient`: the backing array seen by the slice
that `range` evaluated once, the current value of `ac.Clients`, and whether
the two still share their backing array. -/
structure RemoveClient.State (StorageResult SystemResult : Type) where
  rangeArr : List (Option (Client StorageResult SystemResult))
  cur : Slice (Option (Client StorageResult SystemResult))
  shared : Bool

/-- One iteration of the loop of `RemoveClient`, at index `i`. -/
def RemoveClient.body (grow : Nat → Nat) (name : String) (i : Nat)
    (st : RemoveClient.State StorageResult SystemResult) :
    Run (RemoveClient.State StorageResult SystemResult) :=
  match st.rangeArr[i]? with
  | none => Run.stop .indexRange
  | some none => Run.stop .nilDeref
  | some (some client) =>
    if client.Name = name then do
      Run.emit .readClients
      let dst ← st.cur.upTo i
      Run.emit .readClients
      let src ← st.cur.elemsFrom (i + 1)
      let r := Slice.append (grow dst.cap) none dst src
      Run.emit .writeClients
      let inPlace := st.shared && r.2
      Run.ret { rangeArr := if inPlace then r.1.arr else st.rangeArr,
                cur := r.1, shared := inPlace }
    else Run.ret st

/-- The loop `for i, client := range ac.Clients` of `RemoveClient`: `todo`
iterations remain, the next one at index `i`. -/
def RemoveClient.loop (grow : Nat → Nat) (name : String) :
    Nat → Nat → RemoveClient.State StorageResult SystemResult →
    Run (RemoveClient.State StorageResult SystemResult)
  | 0, _, st => Run.ret st
  | todo + 1, i, st => do
    let st' ← RemoveClient.body grow name i st
    RemoveClient.loop grow name todo (i + 1) st'

/-- The method `RemoveClient`; the result is the registry after the call. -/
def RemoveClient (grow : Nat → Nat) (ac : allClients StorageResult SystemResult)
    (name : String) : Run (allClients StorageResult SystemResult) := do
  Run.emit .lock
  Run.emit (.log ("Removing client " ++ name))
  Run.deferring .unlock do
    Run.emit .readClients
    let st ← RemoveClient.loop grow name ac.Clients.len 0
      { rangeArr := ac.Clients.arr, cur := ac.Clients, shared := true }
    Run.ret { ac with Clients := st.cur }

/-- The method `GetActiveClients`. -/
def GetActiveClients (ac : allClients StorageResult SystemResult) :
    Run (Slice (Option (Client StorageResult SystemResult))) := do
  Run.emit .readClients
  Run.ret ac.Clients

/-- The method `GetWaitingClients`. -/
def GetWaitingClients (ac : allClients StorageResult SystemResult) :
    Run (List ClientDetails) := do
  Run.emit .readWaiting
  Run.ret ac.WaitingClients

/-- The method `GetAcceptedClients`. -/
def GetAcceptedClients (ac : allClients StorageResult SystemResult) :
    Run (List ClientDetails) := do
  Run.emit .readAccepted
  Run.ret ac.AcceptedClients

/-- The search loop of `SendUpdateRequest`: the value of `curClient` after the
loop (`none` is nil). -/
def SendUpdateRequest.find (id : String) :
    List (Option (Client StorageResult SystemResult)) →
    Run (Option (Client StorageResult SystemResult))
  | [] => Run.ret none
  | none :: _ => Run.stop .nilDeref
  | some client :: rest =>
    if client.Serial = id then Run.ret (some client)
    else SendUpdateRequest.find id rest

/-- The method `SendUpdateRequest`; the result is the returned `error`
(`none` is the nil error). -/
def SendUpdateRequest (ac : allClients StorageResult SystemResult) (id : String) :
    Run (Option String) := do
  Run.emit .readClients
  let curClient ← SendUpdateRequest.find id ac.Clients.elems
  match curClient with
  | none => Run.ret (some "Client not found")
  | some client => do
    Run.emit (.write client.Conn "UPDATE_NOW\n")
    Run.ret none

/-- Outcome of one call `reader.ReadString(10)`: a complete line with a nil
error, or the bytes read before the failure together with `io.EOF` or with
another error (given by its message). -/
inductive ReadResult where
  | line (s : String)
  | eof (frag : String)
  | failed (frag : String) (msg : String)
deriving DecidableEq, Repr

/-- Modelled from the spec: the method `processEvent` is not in the given
sources.  The spec describes the dispatcher as an external collaborator that
is handed the raw line; the call is recorded, it returns, and it leaves the
name of the record as it is. -/
def processEvent (client : Client StorageResult SystemResult) (line : String) : Run Unit :=
  Run.emit (.processEvent client.Name client.Conn line)

/-- The `for` loop of `processCell`.  The argument lists the outcomes of the
successive reads on the connection; the result is the list of outcomes not
consumed.  When the list is exhausted the read never completes. -/
def processCell.loop (client : Client StorageResult SystemResult) :
    List ReadResult → Run (List ReadResult)
  | [] => do
    Run.emit (.read client.Conn)
    Run.stop .blocked
  | .line s :: rest => do
    Run.emit (.read client.Conn)
    Run.emit (.print (s ++ "\n"))
    processEvent client s
    processCell.loop client rest
  | .eof _ :: rest => do
    Run.emit (.read client.Conn)
    Run.ret rest
  | .failed _ msg :: rest => do
    Run.emit (.read client.Conn)
    Run.emit (.print (msg ++ "\n"))
    Run.ret rest

/-- The method `processCell`, run against the registry `ac`; the result is the
registry after the call and the read outcomes not consumed. -/
def processCell (grow : Nat → Nat) (ac : allClients StorageResult SystemResult)
    (client : Client StorageResult SystemResult) (reads : List ReadResult) :
    Run (allClients StorageResult SystemResult × List ReadResult) := do
  let rest ← processCell.loop client reads
  let ac' ← RemoveClient grow ac client.Name
  Run.ret (ac', rest)

/-- The calls of the claims about sequences of registry operations. -/
inductive Op where
  | AddClient (name serial : String) (conn : Conn)
  | RemoveClient (name : String)
  | GetActiveClients
  | SendUpdateRequest (id : String)
deriving DecidableEq, Repr

/-- One call on the registry; the result is the registry after the call. -/
def step [Inhabited SystemResult] (grow : Nat → Nat)
    (ac : allClients StorageResult SystemResult) :
    Op → Run (allClients StorageResult SystemResult)
  | .AddClient name serial conn => AddClient grow ac name serial conn
  | .RemoveClient name => RemoveClient grow ac name
  | .GetActiveClients => do
    let _ ← GetActiveClients ac
    Run.ret ac
  | .SendUpdateRequest id => do
    let _ ← SendUpdateRequest ac id
    Run.ret ac

/-- A sequence of calls, one after the other. -/
def runOps [Inhabited SystemResult] (grow : Nat → Nat) :
    allClients StorageResult SystemResult → List Op →
    Run (allClients StorageResult SystemResult)
  | ac, [] => Run.ret ac
  | ac, op :: ops => do
    let ac' ← step grow ac op
    runOps grow ac' ops

/-- The registries reached from a registry without active record by finitely
many calls that return. -/
inductive Reachable [Inhabited SystemResult] (grow : Nat → Nat) :
    allClients StorageResult SystemResult → Prop where
  | init (ac : allClients StorageResult SystemResult) :
      ac.Clients.len = 0 → Reachable grow ac
  | call (ac ac' : allClients StorageResult SystemResult) (op : Op) :
      Reachable grow ac → (step grow ac op).result = .ok ac' → Reachable grow ac'

/-- The active records, in list order. -/
def allClients.active (ac : allClients StorageResult SystemResult) :
    List (Client StorageResult SystemResult) :=
  ac.Clients.elems.reduceOption

/-- The names of the active records, in list order. -/
def allClients.names (ac : allClients StorageResult SystemResult) : List String :=
  ac.active.map (fun client => client.Name)

/-- Well-formed registry: the length of `Clients` is within its capacity and
no active slot holds the nil pointer. -/
def allClients.WF (ac : allClients StorageResult SystemResult) : Prop :=
  ac.Clients.len ≤ ac.Clients.cap ∧ ∀ x ∈ ac.Clients.elems, x ≠ none

/-- The record that `AddClient` builds for a call. -/
def newRecord [Inhabited SystemResult] (name serial : String) (conn : Conn) :
    Client StorageResult SystemResult :=
  { Name := name, Serial := serial, Fingerprint := "", Conn := conn,
    Storage := [], System := default }

end registry

/-- Whether every `write` of a trace happens while the lock is not held;
`held` tells whether it is held at the start. -/
def writesOutsideLock : Bool → List Effect → Bool
  | _, [] => true
  | _, .lock :: t => writesOutsideLock true t
  | _, .unlock :: t => writesOutsideLock false t
  | held, .write _ _ :: t => !held && writesOutsideLock held t
  | held, _ :: t => writesOutsideLock held t

/-- Whether every `write` of a trace happens while the lock is held. -/
def writesUnderLock : Bool → List Effect → Bool
  | _, [] => true
  | _, .lock :: t => writesUnderLock true t
  | _, .unlock :: t => writesUnderLock false t
  | held, .write _ _ :: t => held && writesUnderLock held t
  | held, _ :: t => writesUnderLock held t

/-- Whether the effect is an access to one of the three collections. -/
def Effect.isAccess : Effect → Bool
  | .readClients | .writeClients | .readWaiting | .readAccepted => true
  | _ => false

/-- Whether every access to a collection happens while the lock is held. -/
def accessesUnderLock : Bool → List Effect → Bool
  | _, [] => true
  | _, .lock :: t => accessesUnderLock true t
  | _, .unlock :: t => accessesUnderLock false t
  | held, e :: t => (!e.isAccess || held) && accessesUnderLock held t


/-- Whether the effect is a write to, or the closing of, a connection. -/
def Effect.onConn : Effect → Bool
  | .write _ _ | .close _ => true
  | _ => false

/-- The calls `AddClient(name, serial, conn)` for a list of arguments. -/
def addCalls (calls : List (String × String × Conn)) : List Op :=
  calls.map (fun call => Op.AddClient call.1 call.2.1 call.2.2)

/-- A registry with the two active records `alpha` and `beta` and one spare
slot that still holds a stale pointer. -/
def demoRegistry : allClients Unit Unit :=
  { Clients :=
      { arr := [some (newRecord "alpha" "S1" 1), some (newRecord "beta" "S2" 2),
                some (newRecord "beta" "S2" 2)],
        len := 2 },
    AcceptedClients := [], WaitingClients := [] }

/-- The registry of a freshly started server. -/
def emptyRegistry : allClients Unit Unit :=
  { Clients := { arr := [], len := 0 }, AcceptedClients := [], WaitingClients := [] }

instance {StorageResult SystemResult : Type} (ac : allClients StorageResult SystemResult) :
    Decidable ac.WF :=
  decidable_of_iff
    (ac.Clients.len ≤ ac.Clients.cap ∧ ∀ x ∈ ac.Clients.elems, x.isSome = true)
    (and_congr Iff.rfl (forall₂_congr fun x _ => by cases x <;> simp))


/-- The registry after `AddClient("alpha", "S1", 1)` on the registry of a
freshly started server, when the runtime allocates no spare slot. -/
def oneClientRegistry : allClients Unit Unit :=
  { Clients := { arr := [some (newRecord "alpha" "S1" 1)], len := 1 },
    AcceptedClients := [], WaitingClients := [] }

/-- The lines handed to `processEvent`, in order. -/
def dispatched : List Effect → List String
  | [] => []
  | .processEvent _ _ line :: t => line :: dispatched t
  | _ :: t => dispatched t

/-- What `processCell` prints for a failed read: nothing for `io.EOF`, the
error otherwise. -/
def ReadResult.report : ReadResult → List Effect
  | .failed _ msg => [.print (msg ++ "\n")]
  | _ => []

/-- Whether the read returned a complete line. -/
def ReadResult.isLine : ReadResult → Bool
  | .line _ => true
  | _ => false

end connection

namespace cert

/-- Effects of `cert.go` on the file system and the log, with the path
strings exactly as they are passed to the operating system. -/
inductive FsEffect where
  /-- The call `os.Mkdir(path, 0755)`. -/
  | mkdir (path : String)
  /-- The call `os.Create(path)`. -/
  | create (path : String)
  /-- The calls `pem.Encode` and `Close` on the file created at `path`, with
  the type of the PEM block. -/
  | encode (path : String) (blockType : String)
  /-- The call `tls.LoadX509KeyPair(certFile, keyFile)`. -/
  | loadKeyPair (certFile keyFile : String)
  /-- The call `os.ReadFile(path)`. -/
  | readFile (path : String)
  /-- The call `log.Printf`, with the message. -/
  | log (msg : String)
deriving DecidableEq, Repr

/-- Outcome of `os.Mkdir`. -/
inductive MkdirResult where
  | ok
  | alreadyExists
  | failed (msg : String)
deriving DecidableEq, Repr

/-- Outcomes of the calls that `GenerateCert` makes outside this repository;
for each call but `os.Mkdir`, `none` is success and `some msg` an error. -/
structure GenEnv where
  mkdir : MkdirResult
  generateKey : Option String
  serialNumber : Option String
  createCertificate : Option String
  createCertFile : Option String
  createKeyFile : Option String
deriving DecidableEq, Repr

/-- The function `GenerateCert`: its effects and the returned `error`
(`none` is nil). -/
def GenerateCert (env : GenEnv) (dir : String) : List FsEffect × Option String :=
  let afterMkdir (t : List FsEffect) : List FsEffect × Option String :=
    match env.generateKey with
    | some e => (t, some ("failed to generate private key, " ++ e))
    | none =>
    match env.serialNumber with
    | some e => (t, some ("failed to generate serial number: " ++ e))
    | none =>
    match env.createCertificate with
    | some e => (t, some ("failed to create certificate: " ++ e))
    | none =>
    match env.createCertFile with
    | some e =>
      (t ++ [.create "keys/server-cert.pem"],
        some ("failed to open cert.pem for writing: " ++ e))
    | none =>
    match env.createKeyFile with
    | some e =>
      (t ++ [.create "keys/server-cert.pem", .encode "keys/server-cert.pem" "CERTIFICATE",
          .create "keys/server-key.pem"],
        some ("failed to open key.pem for writing: " ++ e))
    | none =>
      (t ++ [.create "keys/server-cert.pem", .encode "keys/server-cert.pem" "CERTIFICATE",
          .create "keys/server-key.pem", .encode "keys/server-key.pem" "EC PRIVATE KEY",
          .log "Certificate and private key successfully generated!"],
        none)
  match env.mkdir with
  | .failed e => ([.mkdir dir], some ("failed to create keys directory, " ++ e))
  | .alreadyExists => afterMkdir [.mkdir dir, .log "Keys directory already exists"]
  | .ok => afterMkdir [.mkdir dir]

/-- Outcome of the first `tls.LoadX509KeyPair` of `SetupTLSConfig`. -/
inductive LoadResult where
  | ok
  | notExist (msg : String)
  | failed (msg : String)
deriving DecidableEq, Repr

/-- Outcomes of the calls that `SetupTLSConfig` makes outside this
repository. -/
structure SetupEnv where
  firstLoad : LoadResult
  gen : GenEnv
  secondLoad : Option String
  readFile : Option String
deriving DecidableEq, Repr

/-- The function `SetupTLSConfig`: its effects and the returned `error`
(`none` is nil, in which case a configuration is returned). -/
def SetupTLSConfig (env : SetupEnv) (dir : String) : List FsEffect × Option String :=
  let first : FsEffect := .loadKeyPair (dir ++ "server-cert.pem") (dir ++ "server-key.pem")
  let loadCA (t : List FsEffect) : List FsEffect × Option String :=
    match env.readFile with
    | some e => (t ++ [.readFile (dir ++ "server-cert.pem")], some ("failed to read server CA: " ++ e))
    | none => (t ++ [.readFile (dir ++ "server-cert.pem")], none)
  match env.firstLoad with
  | .ok => loadCA [first]
  | .failed e => ([first], some ("could not load key pair, " ++ e))
  | .notExist _ =>
    let g := GenerateCert env.gen dir
    let t := first :: .log "Generating new certificate and key pair" :: g.1
    match g.2 with
    | some e => (t, some ("could not generate certificate, " ++ e))
    | none =>
      let t2 := t ++ [.loadKeyPair (dir ++ "server-cert.pem") (dir ++ "server-key.pem")]
      match env.secondLoad with
      | some e => (t2, some ("could not load key pair, " ++ e))
      | none => loadCA t2

/-- The paths of the files a trace creates, in order. -/
def createdPaths : List FsEffect → List String
  | [] => []
  | .create p :: t => p :: createdPaths t
  | _ :: t => createdPaths t

/-- The pairs of paths a trace loads as certificate and key, in order. -/
def loadedPaths : List FsEffect → List (String × String)
  | [] => []
  | .loadKeyPair c k :: t => (c, k) :: loadedPaths t
  | _ :: t => loadedPaths t

/-- The environment in which every call of `GenerateCert` succeeds. -/
def genOk : GenEnv :=
  { mkdir := .ok, generateKey := none, serialNumber := none, createCertificate := none,
    createCertFile := none, createKeyFile := none }

/-- The environment in which the key material is missing at first and every
later call succeeds. -/
def missingThenOk : SetupEnv :=
  { firstLoad := .notExist "no such file or directory", gen := genOk,
    secondLoad := none, readFile := none }

end cert

/-! ## Theorems about the registry -/

namespace connection

section monadLaws
variable {StorageResult SystemResult : Type}

@[simp] theorem Run.bind_ret {α β : Type} (a : α) (f : α → Run β) :
    (Run.ret a >>= f) = f a := by
  show Run.andThen (Run.ret a) f = f a
  simp [Run.andThen, Run.ret]

@[simp] theorem Run.bind_emit {β : Type} (e : Effect) (f : Unit → Run β) :
    (Run.emit e >>= f) = ⟨e :: (f ()).trace, (f ()).result⟩ := by
  show Run.andThen (Run.emit e) f = _
  simp [Run.andThen, Run.emit]

@[simp] theorem Run.bind_stop {α β : Type} (s : Stop) (f : α → Run β) :
    (Run.stop s >>= f) = Run.stop s := by
  show Run.andThen (Run.stop s) f = _
  simp [Run.andThen, Run.stop]

@[simp] theorem Run.bind_mk_ok {α β : Type} (t : List Effect) (a : α) (f : α → Run β) :
    ((⟨t, .ok a⟩ : Run α) >>= f) = ⟨t ++ (f a).trace, (f a).result⟩ := by
  show Run.andThen _ f = _
  simp [Run.andThen]

@[simp] theorem Run.bind_mk_error {α β : Type} (t : List Effect) (e : Stop) (f : α → Run β) :
    ((⟨t, .error e⟩ : Run α) >>= f) = ⟨t, .error e⟩ := by
  show Run.andThen _ f = _
  simp [Run.andThen]

/-- A list of pointers without nil is the list of its pointees, each wrapped. -/
theorem reduceOption_map_some_of_ne_none {α : Type} :
    ∀ l : List (Option α), (∀ x ∈ l, x ≠ none) → l = l.reduceOption.map some
  | [], _ => by simp
  | none :: _, h => absurd rfl (h none (by simp))
  | some a :: l, h => by
    have ih := reduceOption_map_some_of_ne_none l (fun x hx => h x (by simp [hx]))
    simp [List.reduceOption_cons_of_some]
    exact ih

/-- In a well-formed registry the active slots are the active records. -/
theorem allClients.WF.elems_eq {ac : allClients StorageResult SystemResult} (h : ac.WF) :
    ac.Clients.elems = ac.active.map some :=
  reduceOption_map_some_of_ne_none _ h.2

/-- The scan of `AddClient` over non-nil slots: it rejects exactly when a record
has the name. -/
theorem AddClient.scan_map_some (name : String) (conn : Conn) :
    ∀ l : List (Client StorageResult SystemResult),
      AddClient.scan name conn (l.map some) =
        if ∃ c ∈ l, c.Name = name then
          ⟨[.write conn "Name already exists\n", .close conn], .ok true⟩
        else Run.ret false
  | [] => by simp [AddClient.scan]
  | c :: l => by
    have ih := AddClient.scan_map_some name conn l
    by_cases hc : c.Name = name
    · simp [AddClient.scan, hc, Run.ret]
    · simp [AddClient.scan, hc, ih]

end monadLaws

section addClientEq
variable {StorageResult SystemResult : Type}

/-- The whole behaviour of `AddClient` for a name that is active. -/
theorem AddClient_of_mem [Inhabited SystemResult] (grow : Nat → Nat)
    (ac : allClients StorageResult SystemResult) (name serial : String) (conn : Conn)
    (h : ac.WF) (hd : ∃ c ∈ ac.active, c.Name = name) :
    AddClient grow ac name serial conn =
      ⟨[.lock, .readClients, .write conn "Name already exists\n", .close conn, .unlock],
        .ok ac⟩ := by
  unfold AddClient
  rw [h.elems_eq, AddClient.scan_map_some, if_pos hd]
  simp [Run.deferring, Run.bind_mk_ok, Run.ret]

/-- The whole behaviour of `AddClient` for a name that is not active. -/
theorem AddClient_of_not_mem [Inhabited SystemResult] (grow : Nat → Nat)
    (ac : allClients StorageResult SystemResult) (name serial : String) (conn : Conn)
    (h : ac.WF) (hf : ∀ c ∈ ac.active, c.Name ≠ name) :
    AddClient grow ac name serial conn =
      ⟨[.lock, .readClients, .log ("Adding client " ++ name), .readClients, .writeClients,
          .spawn name conn, .write conn "STORAGE_INFO\n", .write conn "SYSTEM_INFO\n", .unlock],
        .ok { ac with Clients := (Slice.append (grow ac.Clients.cap) none ac.Clients
                [some (newRecord name serial conn)]).1 }⟩ := by
  unfold AddClient
  have hd : ¬ ∃ c ∈ ac.active, c.Name = name := by
    rintro ⟨c, hc, hn⟩
    exact hf c hc hn
  rw [h.elems_eq, AddClient.scan_map_some, if_neg hd]
  simp [Run.deferring, Run.ret, newRecord, Run.bind_mk_ok]

/-- Appending one element, in place or after reallocation, extends the elements
by that element and keeps the length within the capacity. -/
theorem Slice.append_one_elems {α : Type} (spare : Nat) (zero : α) (s : Slice α) (x : α)
    (h : s.len ≤ s.cap) :
    (Slice.append spare zero s [x]).1.elems = s.elems ++ [x] ∧
    (Slice.append spare zero s [x]).1.len = s.len + 1 ∧
    (Slice.append spare zero s [x]).1.len ≤ (Slice.append spare zero s [x]).1.cap := by
  unfold Slice.append Slice.elems Slice.cap at *
  have hl : (List.take s.len s.arr).length = s.len := by simp [h]
  split
  · refine ⟨?_, rfl, ?_⟩
    · simp only [List.length_singleton]
      rw [List.append_assoc, List.take_append_eq_append_take]
      simp [hl]
    · simp
      omega
  · refine ⟨?_, rfl, ?_⟩
    · simp only [List.length_singleton]
      rw [List.append_assoc, List.take_append_eq_append_take]
      simp [hl]
    · simp [hl]

end addClientEq

section addClientState
variable {StorageResult SystemResult : Type}

/-- A name is active exactly when an active record has it. -/
theorem mem_names_iff {ac : allClients StorageResult SystemResult} {name : String} :
    name ∈ ac.names ↔ ∃ c ∈ ac.active, c.Name = name := by
  simp [allClients.names]

/-- The registry `AddClient` builds for a fresh name is well-formed and holds
the earlier records followed by the new one. -/
theorem AddClient_fresh_state [Inhabited SystemResult] (grow : Nat → Nat)
    (ac : allClients StorageResult SystemResult) (name serial : String) (conn : Conn)
    (h : ac.WF) :
    let ac' : allClients StorageResult SystemResult :=
      { ac with Clients := (Slice.append (grow ac.Clients.cap) none ac.Clients
                [some (newRecord name serial conn)]).1 }
    ac'.WF ∧ ac'.active = ac.active ++ [newRecord name serial conn] ∧
      ac'.Clients.len = ac.Clients.len + 1 := by
  intro ac'
  obtain ⟨h1, h2, h3⟩ := Slice.append_one_elems (grow ac.Clients.cap) none ac.Clients
    (some (newRecord name serial conn)) h.1
  refine ⟨⟨h3, ?_⟩, ?_, h2⟩
  · intro x hx
    have hx' : x ∈ ac.Clients.elems ++ [some (newRecord name serial conn)] := h1 ▸ hx
    rcases List.mem_append.1 hx' with hm | hm
    · exact h.2 x hm
    · simp at hm
      simp [hm]
  · show (Slice.append (grow ac.Clients.cap) none ac.Clients
        [some (newRecord name serial conn)]).1.elems.reduceOption = _
    rw [h1, List.reduceOption_append]
    simp [allClients.active, List.reduceOption_cons_of_some]

end addClientState

/-- C1: when the registry already holds an active record named `name`,
`AddClient` returns the registry as it was, and its effects are exactly: take
the lock, read the list, write the single line "Name already exists" to the
new connection, close that connection, release the lock.  No other
connection is written to, no bootstrap request is sent and no handler is
started. -/
theorem C1_AddClient_duplicate_name {StorageResult SystemResult : Type}
    [Inhabited SystemResult] (grow : Nat → Nat)
    (ac : allClients StorageResult SystemResult) (name serial : String) (conn : Conn)
    (hwf : ac.WF) (hdup : name ∈ ac.names) :
    AddClient grow ac name serial conn =
      ⟨[.lock, .readClients, .write conn "Name already exists\n", .close conn, .unlock],
        .ok ac⟩ :=
  AddClient_of_mem grow ac name serial conn hwf (mem_names_iff.1 hdup)

/-- C1 at a registry with records `alpha` and `beta`, for the name `beta`. -/
theorem C1_AddClient_duplicate_name_witness :
    demoRegistry.WF ∧ "beta" ∈ demoRegistry.names ∧
    AddClient (fun _ => 0) demoRegistry "beta" "S9" 7 =
      ⟨[.lock, .readClients, .write 7 "Name already exists\n", .close 7, .unlock],
        .ok demoRegistry⟩ :=
  ⟨by decide, by decide,
    C1_AddClient_duplicate_name (fun _ => 0) demoRegistry "beta" "S9" 7 (by decide) (by decide)⟩

/-- C6: when no active record is named `name`, the effects of `AddClient` are
exactly: take the lock, read the list, log, append the record, start the
handler, write "STORAGE_INFO" and then "SYSTEM_INFO" (each newline-terminated)
to the new connection, release the lock.  These two are its only writes and
the connection is not closed. -/
theorem C6_AddClient_bootstrap_writes {StorageResult SystemResult : Type}
    [Inhabited SystemResult] (grow : Nat → Nat)
    (ac : allClients StorageResult SystemResult) (name serial : String) (conn : Conn)
    (hwf : ac.WF) (hfresh : name ∉ ac.names) :
    (AddClient grow ac name serial conn).trace =
      [.lock, .readClients, .log ("Adding client " ++ name), .readClients, .writeClients,
        .spawn name conn, .write conn "STORAGE_INFO\n", .write conn "SYSTEM_INFO\n", .unlock] ∧
    (AddClient grow ac name serial conn).trace.filter Effect.onConn =
      [.write conn "STORAGE_INFO\n", .write conn "SYSTEM_INFO\n"] := by
  have hf : ∀ c ∈ ac.active, c.Name ≠ name := fun c hc hn =>
    hfresh (mem_names_iff.2 ⟨c, hc, hn⟩)
  rw [AddClient_of_not_mem grow ac name serial conn hwf hf]
  simp [Effect.onConn]

/-- C6 at a registry with records `alpha` and `beta`, for the name `gamma`. -/
theorem C6_AddClient_bootstrap_writes_witness :
    demoRegistry.WF ∧ "gamma" ∉ demoRegistry.names ∧
    (AddClient (fun _ => 0) demoRegistry "gamma" "S3" 3).trace.filter Effect.onConn =
      [.write 3 "STORAGE_INFO\n", .write 3 "SYSTEM_INFO\n"] :=
  ⟨by decide, by decide,
    (C6_AddClient_bootstrap_writes (fun _ => 0) demoRegistry "gamma" "S3" 3
      (by decide) (by decide)).2⟩

section sendUpdate
variable {StorageResult SystemResult : Type}

/-- The search of `SendUpdateRequest` over non-nil slots finds the first record
with the serial. -/
theorem SendUpdateRequest.find_map_some (id : String) :
    ∀ l : List (Client StorageResult SystemResult),
      SendUpdateRequest.find id (l.map some) =
        Run.ret (l.find? (fun c => decide (c.Serial = id)))
  | [] => by simp [SendUpdateRequest.find]
  | c :: l => by
    have ih := SendUpdateRequest.find_map_some id l
    by_cases hc : c.Serial = id
    · simp [SendUpdateRequest.find, hc]
    · simp [SendUpdateRequest.find, hc, ih]

/-- The whole behaviour of `SendUpdateRequest` on a well-formed registry. -/
theorem SendUpdateRequest_eq (ac : allClients StorageResult SystemResult) (id : String)
    (h : ac.WF) :
    SendUpdateRequest ac id =
      match ac.active.find? (fun c => decide (c.Serial = id)) with
      | none => ⟨[.readClients], .ok (some "Client not found")⟩
      | some c => ⟨[.readClients, .write c.Conn "UPDATE_NOW\n"], .ok none⟩ := by
  unfold SendUpdateRequest
  rw [h.elems_eq, SendUpdateRequest.find_map_some]
  cases ac.active.find? (fun c => decide (c.Serial = id)) <;> simp [Run.ret]

end sendUpdate

/-- C5: on a well-formed registry `SendUpdateRequest(id)` returns an error
exactly when no active record has serial `id`; in that case it writes nothing;
otherwise its only write is "UPDATE_NOW" with a newline, to the connection of
the first active record with that serial; in both cases the registry after
the call is the registry before it. -/
theorem C5_SendUpdateRequest {StorageResult SystemResult : Type} [Inhabited SystemResult]
    (grow : Nat → Nat) (ac : allClients StorageResult SystemResult) (id : String)
    (hwf : ac.WF) :
    ((∃ msg, (SendUpdateRequest ac id).result = .ok (some msg)) ↔
      ∀ c ∈ ac.active, c.Serial ≠ id) ∧
    ((∀ c ∈ ac.active, c.Serial ≠ id) →
      SendUpdateRequest ac id = ⟨[.readClients], .ok (some "Client not found")⟩) ∧
    (∀ c, ac.active.find? (fun c => decide (c.Serial = id)) = some c →
      SendUpdateRequest ac id =
        ⟨[.readClients, .write c.Conn "UPDATE_NOW\n"], .ok none⟩) ∧
    (step grow ac (.SendUpdateRequest id)).result = .ok ac := by
  have heq := SendUpdateRequest_eq ac id hwf
  refine ⟨?_, ?_, ?_, ?_⟩
  · rw [heq]
    cases hfind : ac.active.find? (fun c => decide (c.Serial = id)) with
    | none =>
      simp only [List.find?_eq_none, decide_eq_true_eq] at hfind
      simpa using hfind
    | some c =>
      have hmem := List.mem_of_find?_eq_some hfind
      have hser : c.Serial = id := by simpa using List.find?_some hfind
      constructor
      · rintro ⟨msg, hmsg⟩
        simp at hmsg
      · intro hall
        exact absurd hser (hall c hmem)
  · intro hnone
    have hfind : ac.active.find? (fun c => decide (c.Serial = id)) = none := by
      simp only [List.find?_eq_none, decide_eq_true_eq]
      exact hnone
    rw [heq, hfind]
  · intro c hfind
    rw [heq, hfind]
  · show (SendUpdateRequest ac id >>= fun _ => Run.ret ac).result = .ok ac
    rw [heq]
    cases ac.active.find? (fun c => decide (c.Serial = id)) <;> simp [Run.bind_mk_ok, Run.ret]

/-- C5 at a registry with records `alpha` and `beta`, for the serial of `beta`. -/
theorem C5_SendUpdateRequest_witness :
    demoRegistry.WF ∧
    SendUpdateRequest demoRegistry "S2" = ⟨[.readClients, .write 2 "UPDATE_NOW\n"], .ok none⟩ :=
  ⟨by decide,
    (C5_SendUpdateRequest (fun _ => 0) demoRegistry "S2" (by decide)).2.2.1
      (newRecord "beta" "S2" 2) (by decide)⟩

section removeLoop
variable {StorageResult SystemResult : Type}

/-- Sequencing is associative. -/
theorem Run.bind_assoc {α β γ : Type} (x : Run α) (f : α → Run β) (g : β → Run γ) :
    ((x >>= f) >>= g) = (x >>= fun a => f a >>= g) := by
  obtain ⟨t, r⟩ := x
  cases r with
  | error e => simp
  | ok a =>
    simp only [Run.bind_mk_ok]
    obtain ⟨t2, r2⟩ := f a
    cases r2 <;> simp

/-- The loop of `RemoveClient` over `a + b` iterations is the loop over the
first `a` followed by the loop over the remaining `b`. -/
theorem RemoveClient.loop_add (grow : Nat → Nat) (name : String) (a b : Nat) :
    ∀ (i : Nat) (st : RemoveClient.State StorageResult SystemResult),
      RemoveClient.loop grow name (a + b) i st =
        (RemoveClient.loop grow name a i st >>= fun st' =>
          RemoveClient.loop grow name b (i + a) st') := by
  induction a with
  | zero => intro i st; simp [RemoveClient.loop]
  | succ a ih =>
    intro i st
    have h1 : a + 1 + b = (a + b) + 1 := by omega
    rw [h1]
    simp only [RemoveClient.loop, ih, Run.bind_assoc]
    congr 1
    funext st'
    congr 1
    funext st2
    congr 1
    omega

/-- Iterations that only read non-nil slots with other names change nothing. -/
theorem RemoveClient.loop_skip (grow : Nat → Nat) (name : String) :
    ∀ (todo i : Nat) (st : RemoveClient.State StorageResult SystemResult),
      (∀ j, i ≤ j → j < i + todo →
        ∃ c, st.rangeArr[j]? = some (some c) ∧ c.Name ≠ name) →
      RemoveClient.loop grow name todo i st = Run.ret st
  | 0, _, _, _ => by simp [RemoveClient.loop]
  | todo + 1, i, st, h => by
    obtain ⟨c, hc, hn⟩ := h i (Nat.le_refl i) (by omega)
    have hb : RemoveClient.body grow name i st = Run.ret st := by
      simp [RemoveClient.body, hc, hn]
    simp only [RemoveClient.loop, hb, Run.bind_ret]
    exact RemoveClient.loop_skip grow name todo (i + 1) st
      (fun j h1 h2 => h j (by omega) (by omega))

end removeLoop

section removeHit
variable {StorageResult SystemResult : Type}

/-- The iteration that finds the name at index `P.length`: both slice
expressions are in range, `append` writes in place, the slots after the index
move one place to the left and the last active slot keeps its stale value. -/
theorem RemoveClient.body_hit (grow : Nat → Nat) (name : String)
    (P Q S : List (Option (Client StorageResult SystemResult)))
    (c : Client StorageResult SystemResult) (hc : c.Name = name) :
    RemoveClient.body grow name P.length
        { rangeArr := P ++ some c :: (Q ++ S),
          cur := ⟨P ++ some c :: (Q ++ S), P.length + 1 + Q.length⟩, shared := true } =
      ⟨[.readClients, .readClients, .writeClients],
        .ok { rangeArr := P ++ Q ++ (some c :: (Q ++ S)).drop Q.length,
              cur := ⟨P ++ Q ++ (some c :: (Q ++ S)).drop Q.length, P.length + Q.length⟩,
              shared := true }⟩ := by
  have h1 : (P ++ some c :: (Q ++ S))[P.length]? = some (some c) := by
    rw [List.getElem?_append_right (Nat.le_refl _)]
    simp
  have h2 : P.length ≤ (P ++ some c :: (Q ++ S)).length := by simp
  have h3 : ((P ++ some c :: (Q ++ S)).take (P.length + 1 + Q.length)).drop (P.length + 1) = Q := by
    have e1 : P ++ some c :: (Q ++ S) = (P ++ [some c] ++ Q) ++ S := by simp
    have e2 : (P ++ [some c] ++ Q).length = P.length + 1 + Q.length := by
      simp only [List.length_append, List.length_singleton]
    rw [e1, List.take_left' e2]
    have e3 : (P ++ [some c]).length = P.length + 1 := by simp
    exact List.drop_left' e3
  have h4 : (P ++ some c :: (Q ++ S)).take P.length = P := List.take_left P _
  have h5 : (P ++ some c :: (Q ++ S)).drop (P.length + Q.length) =
      (some c :: (Q ++ S)).drop Q.length := List.drop_append Q.length
  have h6 : P.length + Q.length ≤ (P ++ some c :: (Q ++ S)).length := by
    simp
    omega
  have h7 : ∀ sp : Nat, Slice.append sp none
      (⟨P ++ some c :: (Q ++ S), P.length⟩ : Slice (Option (Client StorageResult SystemResult))) Q =
      (⟨P ++ Q ++ (some c :: (Q ++ S)).drop Q.length, P.length + Q.length⟩, true) := by
    intro sp
    simp only [Slice.append, Slice.cap, h6, if_true, h4, h5]
  simp only [RemoveClient.body, h1, hc, if_true, Slice.upTo, Slice.cap, h2, Slice.elemsFrom,
    Slice.elems, h3, h7, Run.bind_emit, Run.bind_ret, Run.ret,
    Run.bind_mk_ok, Bool.and_self, Nat.le_refl, le_refl]
  simp [h7]

/-- After the shift, every slot the loop still reads holds an element of the
records that followed the removed one. -/
theorem stale_getElem? {α : Type} (Q S : List α) (x : α) (m : Nat)
    (h1 : 1 ≤ m) (h2 : m ≤ Q.length) :
    ∃ q ∈ Q, (Q ++ (x :: (Q ++ S)).drop Q.length)[m]? = some q := by
  by_cases hm : m < Q.length
  · refine ⟨Q[m], List.getElem_mem _, ?_⟩
    rw [List.getElem?_append_left hm]
    exact List.getElem?_eq_getElem hm
  · have hm' : m = Q.length := by omega
    subst hm'
    have hlt : Q.length - 1 < Q.length := by omega
    refine ⟨Q[Q.length - 1], List.getElem_mem _, ?_⟩
    rw [List.getElem?_append_right (Nat.le_refl _), Nat.sub_self, List.getElem?_drop]
    have e : Q.length + 0 = (Q.length - 1) + 1 := by omega
    rw [e, List.getElem?_cons_succ, List.getElem?_append_left hlt]
    exact List.getElem?_eq_getElem hlt

end removeHit

section removeEq
variable {StorageResult SystemResult : Type}

/-- Wrapping and unwrapping a list of records gives it back. -/
theorem reduceOption_map_some {α : Type} :
    ∀ l : List α, (l.map some).reduceOption = l
  | [] => by simp
  | a :: l => by
    simp [List.reduceOption_cons_of_some, reduceOption_map_some l]

/-- In a well-formed registry the backing array is the active records followed
by the spare slots. -/
theorem allClients.WF.arr_eq {ac : allClients StorageResult SystemResult} (h : ac.WF) :
    ac.Clients.arr = ac.active.map some ++ ac.Clients.arr.drop ac.Clients.len ∧
    ac.active.length = ac.Clients.len := by
  have he := h.elems_eq
  constructor
  · rw [← he]
    exact (List.take_append_drop _ _).symm
  · have hl : ac.Clients.elems.length = ac.Clients.len := by
      simp only [Slice.elems, List.length_take]
      exact Nat.min_eq_left h.1
    rw [← hl, he, List.length_map]

/-- The whole behaviour of `RemoveClient` for a name that is not active. -/
theorem RemoveClient_of_not_mem (grow : Nat → Nat)
    (ac : allClients StorageResult SystemResult) (name : String)
    (h : ac.WF) (hf : ∀ c ∈ ac.active, c.Name ≠ name) :
    RemoveClient grow ac name =
      ⟨[.lock, .log ("Removing client " ++ name), .readClients, .unlock], .ok ac⟩ := by
  obtain ⟨harr, hlen⟩ := h.arr_eq
  have hskip : RemoveClient.loop grow name ac.Clients.len 0
      { rangeArr := ac.Clients.arr, cur := ac.Clients, shared := true } =
      Run.ret { rangeArr := ac.Clients.arr, cur := ac.Clients, shared := true } := by
    apply RemoveClient.loop_skip
    intro j _ hj
    have hj' : j < ac.active.length := by omega
    refine ⟨ac.active[j], ?_, hf _ (List.getElem_mem _)⟩
    show ac.Clients.arr[j]? = _
    rw [harr, List.getElem?_append_left (by simpa using hj')]
    simp [hj']
  unfold RemoveClient
  rw [hskip]
  simp [Run.deferring, Run.ret]

/-- The behaviour of `RemoveClient` when exactly one active record, at any
position, has the name. -/
theorem RemoveClient_of_mem (grow : Nat → Nat)
    (ac : allClients StorageResult SystemResult) (name : String)
    (pre post : List (Client StorageResult SystemResult))
    (c : Client StorageResult SystemResult)
    (h : ac.WF) (hact : ac.active = pre ++ c :: post) (hc : c.Name = name)
    (hpre : ∀ x ∈ pre, x.Name ≠ name) (hpost : ∀ x ∈ post, x.Name ≠ name) :
    ∃ ac' : allClients StorageResult SystemResult,
      RemoveClient grow ac name =
        ⟨[.lock, .log ("Removing client " ++ name), .readClients, .readClients, .readClients,
            .writeClients, .unlock], .ok ac'⟩ ∧
      ac'.WF ∧ ac'.active = pre ++ post ∧
      ac'.AcceptedClients = ac.AcceptedClients ∧ ac'.WaitingClients = ac.WaitingClients := by
  obtain ⟨harr, hlen⟩ := h.arr_eq
  obtain ⟨⟨arr, len⟩, acc, wait⟩ := ac
  simp only at harr hlen
  generalize hS : arr.drop len = S at harr
  rw [hact] at harr hlen
  have harr' : arr = pre.map some ++ some c :: (post.map some ++ S) := by
    rw [harr]
    simp
  have hlen' : len = (pre.map some).length + 1 + (post.map some).length := by
    rw [← hlen]
    simp
    omega
  subst harr'
  subst hlen'
  have step1 : RemoveClient.loop grow name (pre.map some).length 0
      { rangeArr := pre.map some ++ some c :: (post.map some ++ S),
        cur := ⟨pre.map some ++ some c :: (post.map some ++ S),
          (pre.map some).length + 1 + (post.map some).length⟩, shared := true } =
      Run.ret (RemoveClient.State.mk (pre.map some ++ some c :: (post.map some ++ S))
        ⟨pre.map some ++ some c :: (post.map some ++ S),
          (pre.map some).length + 1 + (post.map some).length⟩ true) := by
    apply RemoveClient.loop_skip
    intro j _ hj
    have hj' : j < pre.length := by simpa using hj
    refine ⟨pre[j], ?_, hpre _ (List.getElem_mem _)⟩
    show (pre.map some ++ some c :: (post.map some ++ S))[j]? = _
    rw [List.getElem?_append_left (by simpa using hj')]
    simp [hj']
  have step3 : RemoveClient.loop grow name (post.map some).length ((pre.map some).length + 1)
      { rangeArr := pre.map some ++ post.map some ++
          (some c :: (post.map some ++ S)).drop (post.map some).length,
        cur := ⟨pre.map some ++ post.map some ++
          (some c :: (post.map some ++ S)).drop (post.map some).length,
          (pre.map some).length + (post.map some).length⟩, shared := true } =
      Run.ret (RemoveClient.State.mk (pre.map some ++ post.map some ++
          (some c :: (post.map some ++ S)).drop (post.map some).length)
        ⟨pre.map some ++ post.map some ++
          (some c :: (post.map some ++ S)).drop (post.map some).length,
          (pre.map some).length + (post.map some).length⟩ true) := by
    apply RemoveClient.loop_skip
    intro j hj1 hj2
    obtain ⟨q, hq, hget⟩ := stale_getElem? (post.map some) S (some c)
      (j - (pre.map some).length) (by omega) (by omega)
    obtain ⟨x, hx, rfl⟩ := List.mem_map.1 hq
    refine ⟨x, ?_, hpost x hx⟩
    show (pre.map some ++ post.map some ++
      (some c :: (post.map some ++ S)).drop (post.map some).length)[j]? = _
    rw [List.append_assoc, List.getElem?_append_right (by omega)]
    exact hget
  refine ⟨allClients.mk (Slice.mk (pre.map some ++ post.map some ++
      (some c :: (post.map some ++ S)).drop (post.map some).length)
      ((pre.map some).length + (post.map some).length)) acc wait, ?_, ?_, ?_, rfl, rfl⟩
  · unfold RemoveClient
    simp only
    rw [RemoveClient.loop_add, RemoveClient.loop_add, step1, Run.bind_ret]
    simp only [RemoveClient.loop, Nat.zero_add]
    rw [RemoveClient.body_hit grow name _ _ _ c hc]
    simp only [Run.bind_mk_ok, Run.bind_ret, Run.ret]
    rw [step3]
    simp [Run.deferring, Run.ret]
  · have e : (pre.map some ++ post.map some).length =
        (pre.map some).length + (post.map some).length := by simp
    constructor
    · simp [Slice.cap]
    · intro x hx
      change x ∈ List.take _ _ at hx
      rw [List.take_left' e] at hx
      rcases List.mem_append.1 hx with hm | hm
      · obtain ⟨y, _, rfl⟩ := List.mem_map.1 hm
        simp
      · obtain ⟨y, _, rfl⟩ := List.mem_map.1 hm
        simp
  · have e : (pre.map some ++ post.map some).length =
        (pre.map some).length + (post.map some).length := by simp
    show (List.take _ _).reduceOption = _
    rw [List.take_left' e, ← List.map_append, reduceOption_map_some]

end removeEq

section removeSpec
variable {StorageResult SystemResult : Type}

/-- With pairwise distinct names, an active name splits the records around the
only record that has it. -/
theorem split_of_mem_names {ac : allClients StorageResult SystemResult} {name : String}
    (hnd : ac.names.Nodup) (hmem : name ∈ ac.names) :
    ∃ pre c post, ac.active = pre ++ c :: post ∧ c.Name = name ∧
      (∀ x ∈ pre, x.Name ≠ name) ∧ (∀ x ∈ post, x.Name ≠ name) := by
  obtain ⟨c, hc, hn⟩ := mem_names_iff.1 hmem
  obtain ⟨pre, post, hsplit⟩ := List.append_of_mem hc
  refine ⟨pre, c, post, hsplit, hn, ?_, ?_⟩
  · intro x hx hxn
    have hnd' := hnd
    simp only [allClients.names, hsplit, List.map_append, List.map_cons] at hnd'
    have hdis := (List.nodup_append.1 hnd').2.2
    exact hdis (List.mem_map.2 ⟨x, hx, hxn⟩) (by simp [hn])
  · intro x hx hxn
    have hnd' := hnd
    simp only [allClients.names, hsplit, List.map_append, List.map_cons] at hnd'
    have hcons := (List.nodup_append.1 hnd').2.1
    have hnot := (List.nodup_cons.1 hcons).1
    exact hnot (List.mem_map.2 ⟨x, hx, by rw [hxn, hn]⟩)

/-- Filtering by name removes exactly the record that has it. -/
theorem filter_split {name : String} (pre post : List (Client StorageResult SystemResult))
    (c : Client StorageResult SystemResult) (hc : c.Name = name)
    (hpre : ∀ x ∈ pre, x.Name ≠ name) (hpost : ∀ x ∈ post, x.Name ≠ name) :
    (pre ++ c :: post).filter (fun x => decide (x.Name ≠ name)) = pre ++ post := by
  have h1 : pre.filter (fun x => decide (x.Name ≠ name)) = pre :=
    List.filter_eq_self.2 (fun x hx => by simpa using hpre x hx)
  have h2 : post.filter (fun x => decide (x.Name ≠ name)) = post :=
    List.filter_eq_self.2 (fun x hx => by simpa using hpost x hx)
  rw [List.filter_append, List.filter_cons, h1, h2]
  simp [hc]

/-- `RemoveClient` on a well-formed registry with pairwise distinct names. -/
theorem RemoveClient_spec (grow : Nat → Nat)
    (ac : allClients StorageResult SystemResult) (name : String)
    (hwf : ac.WF) (hnd : ac.names.Nodup) :
    ∃ ac' : allClients StorageResult SystemResult,
      (RemoveClient grow ac name).result = .ok ac' ∧ ac'.WF ∧
      ac'.active = ac.active.filter (fun c => decide (c.Name ≠ name)) ∧
      (name ∉ ac.names → ac' = ac) ∧
      (∃ body, (RemoveClient grow ac name).trace =
        .lock :: .log ("Removing client " ++ name) :: .readClients :: (body ++ [.unlock]) ∧
        (body = [] ∨ body = [.readClients, .readClients, .writeClients])) := by
  by_cases hmem : name ∈ ac.names
  · obtain ⟨pre, c, post, hsplit, hc, hpre, hpost⟩ := split_of_mem_names hnd hmem
    obtain ⟨ac', hrun, hwf', hact, _, _⟩ :=
      RemoveClient_of_mem grow ac name pre post c hwf hsplit hc hpre hpost
    refine ⟨ac', by rw [hrun], hwf', ?_, fun h => absurd hmem h, ?_⟩
    · rw [hact, hsplit, filter_split pre post c hc hpre hpost]
    · exact ⟨[.readClients, .readClients, .writeClients], by rw [hrun]; rfl, Or.inr rfl⟩
  · have hf : ∀ c ∈ ac.active, c.Name ≠ name := fun c hc hn =>
      hmem (mem_names_iff.2 ⟨c, hc, hn⟩)
    have hrun := RemoveClient_of_not_mem grow ac name hwf hf
    refine ⟨ac, by rw [hrun], hwf, ?_, fun _ => rfl, ?_⟩
    · exact (List.filter_eq_self.2 (fun x hx => by simpa using hf x hx)).symm
    · exact ⟨[], by rw [hrun]; rfl, Or.inl rfl⟩

/-- After filtering by name the names stay distinct and the name is absent. -/
theorem names_filter_nodup {ac ac' : allClients StorageResult SystemResult} {name : String}
    (hnd : ac.names.Nodup)
    (hact : ac'.active = ac.active.filter (fun c => decide (c.Name ≠ name))) :
    ac'.names.Nodup ∧ name ∉ ac'.names := by
  constructor
  · simp only [allClients.names, hact]
    exact List.Nodup.sublist (List.Sublist.map _ (List.filter_sublist _)) hnd
  · intro hmem
    obtain ⟨c, hc, hn⟩ := mem_names_iff.1 hmem
    rw [hact] at hc
    have := (List.mem_filter.1 hc).2
    simp [hn] at this

end removeSpec

/-- C4: on a well-formed registry whose active records have pairwise distinct
names, `RemoveClient(name)` returns (no slice or index expression goes out of
range while the loop runs over the list it shrinks), and the active records
afterwards are the original ones without the record named `name`, in their
original order.  When no active record has that name the registry is
unchanged, and removing the same name once more changes nothing. -/
theorem C4_RemoveClient {StorageResult SystemResult : Type} (grow : Nat → Nat)
    (ac : allClients StorageResult SystemResult) (name : String)
    (hwf : ac.WF) (hnd : ac.names.Nodup) :
    ∃ ac' : allClients StorageResult SystemResult,
      (RemoveClient grow ac name).result = .ok ac' ∧
      ac'.active = ac.active.filter (fun c => decide (c.Name ≠ name)) ∧
      (name ∉ ac.names → ac' = ac) ∧
      (RemoveClient grow ac' name).result = .ok ac' := by
  obtain ⟨ac', hrun, hwf', hact, hsame, _⟩ := RemoveClient_spec grow ac name hwf hnd
  obtain ⟨hnd', hnot⟩ := names_filter_nodup hnd hact
  obtain ⟨ac2, hrun2, _, _, hsame2, _⟩ := RemoveClient_spec grow ac' name hwf' hnd'
  refine ⟨ac', hrun, hact, hsame, ?_⟩
  rw [hrun2, hsame2 hnot]

/-- C4 at a registry with records `alpha` and `beta`, for the name `alpha`. -/
theorem C4_RemoveClient_witness :
    demoRegistry.WF ∧ demoRegistry.names.Nodup ∧
    ∃ ac' : allClients Unit Unit,
      (RemoveClient (fun _ => 0) demoRegistry "alpha").result = .ok ac' ∧
      ac'.active = demoRegistry.active.filter (fun c => decide (c.Name ≠ "alpha")) ∧
      ("alpha" ∉ demoRegistry.names → ac' = demoRegistry) ∧
      (RemoveClient (fun _ => 0) ac' "alpha").result = .ok ac' :=
  ⟨by decide, by decide,
    C4_RemoveClient (fun _ => 0) demoRegistry "alpha" (by decide) (by decide)⟩

section sequences
variable {StorageResult SystemResult : Type}

/-- `AddClient` on a well-formed registry for a fresh name. -/
theorem AddClient_spec [Inhabited SystemResult] (grow : Nat → Nat)
    (ac : allClients StorageResult SystemResult) (name serial : String) (conn : Conn)
    (hwf : ac.WF) (hfresh : name ∉ ac.names) :
    ∃ ac' : allClients StorageResult SystemResult,
      (AddClient grow ac name serial conn).result = .ok ac' ∧ ac'.WF ∧
      ac'.active = ac.active ++ [newRecord name serial conn] ∧
      ac'.Clients.len = ac.Clients.len + 1 := by
  have hf : ∀ c ∈ ac.active, c.Name ≠ name := fun c hc hn =>
    hfresh (mem_names_iff.2 ⟨c, hc, hn⟩)
  obtain ⟨h1, h2, h3⟩ := AddClient_fresh_state grow ac name serial conn hwf
  exact ⟨_, by rw [AddClient_of_not_mem grow ac name serial conn hwf hf], h1, h2, h3⟩

/-- A registry whose `Clients` has length zero is well-formed and has no active
record. -/
theorem WF_of_len_zero {ac : allClients StorageResult SystemResult}
    (h : ac.Clients.len = 0) : ac.WF ∧ ac.active = [] := by
  constructor
  · constructor
    · rw [h]
      exact Nat.zero_le _
    · intro x hx
      simp [Slice.elems, h] at hx
  · simp [allClients.active, Slice.elems, h]

/-- Every call on a well-formed registry with pairwise distinct names returns,
and the registry it leaves is again well-formed with pairwise distinct names. -/
theorem step_preserves [Inhabited SystemResult] (grow : Nat → Nat)
    (ac : allClients StorageResult SystemResult) (op : Op)
    (hwf : ac.WF) (hnd : ac.names.Nodup) :
    ∃ ac' : allClients StorageResult SystemResult,
      (step grow ac op).result = .ok ac' ∧ ac'.WF ∧ ac'.names.Nodup := by
  cases op with
  | AddClient name serial conn =>
    by_cases hmem : name ∈ ac.names
    · refine ⟨ac, ?_, hwf, hnd⟩
      show (AddClient grow ac name serial conn).result = _
      rw [AddClient_of_mem grow ac name serial conn hwf (mem_names_iff.1 hmem)]
    · obtain ⟨ac', hrun, hwf', hact, _⟩ := AddClient_spec grow ac name serial conn hwf hmem
      refine ⟨ac', hrun, hwf', ?_⟩
      have hn : ac'.names = ac.names ++ [name] := by
        simp [allClients.names, hact, newRecord]
      rw [hn]
      exact List.Nodup.append hnd (List.nodup_singleton _)
        (fun a ha hb => hmem ((List.mem_singleton.1 hb) ▸ ha))
  | RemoveClient name =>
    obtain ⟨ac', hrun, hwf', hact, _, _⟩ := RemoveClient_spec grow ac name hwf hnd
    exact ⟨ac', hrun, hwf', (names_filter_nodup hnd hact).1⟩
  | GetActiveClients =>
    exact ⟨ac, by simp [step, GetActiveClients, Run.ret], hwf, hnd⟩
  | SendUpdateRequest id =>
    refine ⟨ac, ?_, hwf, hnd⟩
    show (SendUpdateRequest ac id >>= fun _ => Run.ret ac).result = .ok ac
    rw [SendUpdateRequest_eq ac id hwf]
    cases ac.active.find? (fun c => decide (c.Serial = id)) <;> simp [Run.ret]

/-- Every reachable registry is well-formed with pairwise distinct names. -/
theorem Reachable.inv [Inhabited SystemResult] {grow : Nat → Nat}
    {ac : allClients StorageResult SystemResult} (h : Reachable grow ac) :
    ac.WF ∧ ac.names.Nodup := by
  induction h with
  | init ac h0 =>
    obtain ⟨hwf, hact⟩ := WF_of_len_zero h0
    exact ⟨hwf, by simp [allClients.names, hact]⟩
  | call ac ac' op _ hrun ih =>
    obtain ⟨ac2, hrun', hwf', hnd'⟩ := step_preserves grow ac op ih.1 ih.2
    rw [hrun] at hrun'
    have e : ac' = ac2 := by
      injection hrun'
    rw [e]
    exact ⟨hwf', hnd'⟩

/-- A sequence of `AddClient` calls with fresh, pairwise distinct names appends
one record per call. -/
theorem runOps_addCalls [Inhabited SystemResult] (grow : Nat → Nat) :
    ∀ (calls : List (String × String × Conn)) (ac : allClients StorageResult SystemResult),
      ac.WF → (ac.names ++ calls.map (fun call => call.1)).Nodup →
      ∃ ac' : allClients StorageResult SystemResult,
        (runOps grow ac (addCalls calls)).result = .ok ac' ∧ ac'.WF ∧
        ac'.active = ac.active ++
          calls.map (fun call => newRecord call.1 call.2.1 call.2.2)
  | [], ac, hwf, _ => ⟨ac, by simp [addCalls, runOps, Run.ret], hwf, by simp⟩
  | call :: calls, ac, hwf, hnd => by
    have hfresh : call.1 ∉ ac.names := by
      intro hmem
      have hdis := (List.nodup_append.1 hnd).2.2
      exact hdis hmem (by simp)
    obtain ⟨ac1, hrun1, hwf1, hact1, _⟩ :=
      AddClient_spec grow ac call.1 call.2.1 call.2.2 hwf hfresh
    have hn1 : ac1.names = ac.names ++ [call.1] := by
      simp [allClients.names, hact1, newRecord]
    have hnd1 : (ac1.names ++ calls.map (fun call => call.1)).Nodup := by
      rw [hn1, List.append_assoc]
      simpa using hnd
    obtain ⟨ac', hrun', hwf', hact'⟩ := runOps_addCalls grow calls ac1 hwf1 hnd1
    refine ⟨ac', ?_, hwf', ?_⟩
    · show (AddClient grow ac call.1 call.2.1 call.2.2 >>= fun ac1 =>
        runOps grow ac1 (addCalls calls)).result = _
      have hA : AddClient grow ac call.1 call.2.1 call.2.2 =
          ⟨(AddClient grow ac call.1 call.2.1 call.2.2).trace, .ok ac1⟩ := by
        rw [← hrun1]
      rw [hA, Run.bind_mk_ok]
      exact hrun'
    · rw [hact', hact1]
      simp

end sequences

/-- C2: in every registry reached from a registry without active record by a
finite sequence of `AddClient`, `RemoveClient`, `GetActiveClients` and
`SendUpdateRequest` calls, the names of the active records are pairwise
distinct. -/
theorem C2_names_unique {StorageResult SystemResult : Type} [Inhabited SystemResult]
    (grow : Nat → Nat) (ac : allClients StorageResult SystemResult)
    (h : Reachable grow ac) : ac.names.Nodup :=
  (Reachable.inv h).2

/-- C2 at the registry reached by adding `alpha` twice to the empty registry. -/
theorem C2_names_unique_witness : oneClientRegistry.names.Nodup :=
  C2_names_unique (fun _ => 0) oneClientRegistry
    (Reachable.call oneClientRegistry oneClientRegistry (.AddClient "alpha" "S7" 5)
      (Reachable.call emptyRegistry oneClientRegistry (.AddClient "alpha" "S1" 1)
        (Reachable.init emptyRegistry rfl) (by decide))
      (by decide))

/-- C3: `AddClient` calls with pairwise distinct names, applied one after the
other to a registry without active record, all return, and the registry then
holds exactly one active record per call, in call order, each with the name,
serial and connection of its call and an empty fingerprint.  Each `AddClient`
with a name not yet active appends its record at the end and leaves the
earlier records as they were. -/
theorem C3_AddClient_distinct_names {StorageResult SystemResult : Type}
    [Inhabited SystemResult] (grow : Nat → Nat) :
    (∀ (ac : allClients StorageResult SystemResult) (calls : List (String × String × Conn)),
      ac.Clients.len = 0 → (calls.map (fun call => call.1)).Nodup →
      ∃ ac' : allClients StorageResult SystemResult,
        (runOps grow ac (addCalls calls)).result = .ok ac' ∧
        ac'.active = calls.map (fun call => newRecord call.1 call.2.1 call.2.2) ∧
        ac'.Clients.len = calls.length) ∧
    (∀ (ac : allClients StorageResult SystemResult) (name serial : String) (conn : Conn),
      ac.WF → name ∉ ac.names →
      ∃ ac' : allClients StorageResult SystemResult,
        (AddClient grow ac name serial conn).result = .ok ac' ∧
        ac'.active = ac.active ++
          [{ Name := name, Serial := serial, Fingerprint := "", Conn := conn,
             Storage := [], System := default }]) := by
  constructor
  · intro ac calls h0 hnd
    obtain ⟨hwf, hact⟩ := WF_of_len_zero h0
    have hnd' : (ac.names ++ calls.map (fun call => call.1)).Nodup := by
      simpa [allClients.names, hact] using hnd
    obtain ⟨ac', hrun, hwf', hact'⟩ := runOps_addCalls grow calls ac hwf hnd'
    refine ⟨ac', hrun, by rw [hact', hact, List.nil_append], ?_⟩
    rw [← hwf'.arr_eq.2, hact', hact]
    simp
  · intro ac name serial conn hwf hfresh
    obtain ⟨ac', hrun, _, hact, _⟩ := AddClient_spec grow ac name serial conn hwf hfresh
    exact ⟨ac', hrun, hact⟩

/-- C3 at the empty registry, for the calls `alpha` and `beta`. -/
theorem C3_AddClient_distinct_names_witness :
    emptyRegistry.Clients.len = 0 ∧ (["alpha", "beta"] : List String).Nodup ∧
    ∃ ac' : allClients Unit Unit,
      (runOps (fun _ => 0) emptyRegistry
        (addCalls [("alpha", "S1", 1), ("beta", "S2", 2)])).result = .ok ac' ∧
      ac'.active = [newRecord "alpha" "S1" 1, newRecord "beta" "S2" 2] ∧
      ac'.Clients.len = 2 :=
  ⟨rfl, by decide,
    (C3_AddClient_distinct_names (fun _ => 0)).1 emptyRegistry
      [("alpha", "S1", 1), ("beta", "S2", 2)] rfl (by decide)⟩

section readLoop
variable {StorageResult SystemResult : Type}

/-- The read loop over complete lines: three effects per line, then the rest
of the loop. -/
theorem processCell.loop_lines (client : Client StorageResult SystemResult)
    (tail : List ReadResult) :
    ∀ lines : List String,
      processCell.loop client (lines.map ReadResult.line ++ tail) =
        ⟨lines.flatMap (fun s => [Effect.read client.Conn, Effect.print (s ++ "\n"),
            Effect.processEvent client.Name client.Conn s]) ++
          (processCell.loop client tail).trace,
          (processCell.loop client tail).result⟩
  | [] => by simp
  | s :: lines => by
    have ih := processCell.loop_lines client tail lines
    simp [processCell.loop, processEvent, ih]

/-- The read loop at a failed read: it stops and leaves the later outcomes. -/
theorem processCell.loop_failure (client : Client StorageResult SystemResult)
    (r : ReadResult) (rest : List ReadResult) (hr : r.isLine = false) :
    processCell.loop client (r :: rest) = ⟨.read client.Conn :: r.report, .ok rest⟩ := by
  cases r with
  | line s => simp [ReadResult.isLine] at hr
  | eof frag => simp [processCell.loop, ReadResult.report, Run.ret]
  | failed frag msg => simp [processCell.loop, ReadResult.report, Run.ret]

/-- The dispatched lines of a concatenation. -/
theorem dispatched_append (a b : List Effect) :
    dispatched (a ++ b) = dispatched a ++ dispatched b := by
  induction a with
  | nil => rfl
  | cons e a ih => cases e <;> simp [dispatched, ih]

/-- The dispatched lines of the effects of a sequence of complete lines. -/
theorem dispatched_lines (name : String) (conn : Conn) :
    ∀ lines : List String,
      dispatched (lines.flatMap (fun s => [Effect.read conn, Effect.print (s ++ "\n"),
        Effect.processEvent name conn s])) = lines
  | [] => rfl
  | s :: lines => by
    have ih := dispatched_lines name conn lines
    simp only [List.flatMap_cons, dispatched_append, ih]
    rfl

/-- The effects of complete lines contain only reads, prints and dispatches. -/
theorem count_lines (name : String) (conn : Conn) (e : Effect)
    (h1 : e ≠ .read conn) (h2 : ∀ s, e ≠ .print s) (h3 : ∀ s, e ≠ .processEvent name conn s) :
    ∀ lines : List String,
      (lines.flatMap (fun s => [Effect.read conn, Effect.print (s ++ "\n"),
        Effect.processEvent name conn s])).count e = 0
  | [] => rfl
  | s :: lines => by
    have ih := count_lines name conn e h1 h2 h3 lines
    simp only [List.flatMap_cons, List.count_append, ih, Nat.add_zero]
    simp [List.count_cons, Ne.symm h1, Ne.symm (h2 _), Ne.symm (h3 _)]

/-- One read per complete line. -/
theorem count_read_lines (name : String) (conn : Conn) :
    ∀ lines : List String,
      (lines.flatMap (fun s => [Effect.read conn, Effect.print (s ++ "\n"),
        Effect.processEvent name conn s])).count (.read conn) = lines.length
  | [] => rfl
  | s :: lines => by
    have ih := count_read_lines name conn lines
    simp only [List.flatMap_cons, List.count_append, ih, List.length_cons]
    simp [List.count_cons]
    omega

end readLoop

/-- C7: when the reads on the connection yield the complete lines `lines` and
then fail (with end-of-stream or another error), `processCell` returns: it
hands exactly those lines to `processEvent`, once each and in order, performs
exactly one read per line plus the failed one (the later outcomes `rest` are
not consumed), and then runs `RemoveClient` with the name of its client
exactly once. -/
theorem C7_processCell {StorageResult SystemResult : Type} (grow : Nat → Nat)
    (ac : allClients StorageResult SystemResult) (client : Client StorageResult SystemResult)
    (lines : List String) (r : ReadResult) (rest : List ReadResult)
    (hr : r.isLine = false) (hwf : ac.WF) (hnd : ac.names.Nodup) :
    ∃ ac' : allClients StorageResult SystemResult,
      (RemoveClient grow ac client.Name).result = .ok ac' ∧
      processCell grow ac client (lines.map ReadResult.line ++ r :: rest) =
        ⟨lines.flatMap (fun s => [Effect.read client.Conn, Effect.print (s ++ "\n"),
            Effect.processEvent client.Name client.Conn s]) ++
          (.read client.Conn :: r.report) ++ (RemoveClient grow ac client.Name).trace,
          .ok (ac', rest)⟩ ∧
      dispatched (processCell grow ac client
        (lines.map ReadResult.line ++ r :: rest)).trace = lines ∧
      (processCell grow ac client
        (lines.map ReadResult.line ++ r :: rest)).trace.count (.read client.Conn) =
          lines.length + 1 ∧
      (processCell grow ac client
        (lines.map ReadResult.line ++ r :: rest)).trace.count .lock = 1 ∧
      (processCell grow ac client
        (lines.map ReadResult.line ++ r :: rest)).trace.count
          (.log ("Removing client " ++ client.Name)) = 1 := by
  obtain ⟨ac', hrun, _, _, _, body, htrace, hbody⟩ :=
    RemoveClient_spec grow ac client.Name hwf hnd
  have hR : RemoveClient grow ac client.Name =
      ⟨(RemoveClient grow ac client.Name).trace, .ok ac'⟩ := by
    rw [← hrun]
  have hcell : processCell grow ac client (lines.map ReadResult.line ++ r :: rest) =
      ⟨lines.flatMap (fun s => [Effect.read client.Conn, Effect.print (s ++ "\n"),
          Effect.processEvent client.Name client.Conn s]) ++
        (.read client.Conn :: r.report) ++ (RemoveClient grow ac client.Name).trace,
        .ok (ac', rest)⟩ := by
    unfold processCell
    rw [processCell.loop_lines, processCell.loop_failure client r rest hr, Run.bind_mk_ok]
    conv_lhs => rw [hR]
    simp [Run.ret]
  refine ⟨ac', hrun, hcell, ?_, ?_, ?_, ?_⟩
  · rw [hcell, htrace]
    simp only [dispatched_append, dispatched_lines]
    rcases hbody with hb | hb <;> cases r <;>
      simp [hb, dispatched, ReadResult.report, ReadResult.isLine] at hr ⊢
  · rw [hcell, htrace]
    simp only [List.count_append, count_read_lines]
    rcases hbody with hb | hb <;> cases r <;>
      simp [hb, List.count_cons, ReadResult.report, ReadResult.isLine] at hr ⊢
  · rw [hcell, htrace]
    simp only [List.count_append]
    rw [count_lines client.Name client.Conn .lock (by simp) (by simp) (by simp)]
    rcases hbody with hb | hb <;> cases r <;>
      simp [hb, List.count_cons, ReadResult.report, ReadResult.isLine] at hr ⊢
  · rw [hcell, htrace]
    simp only [List.count_append]
    rw [count_lines client.Name client.Conn _ (by simp) (by simp) (by simp)]
    rcases hbody with hb | hb <;> cases r <;>
      simp [hb, List.count_cons, ReadResult.report, ReadResult.isLine] at hr ⊢

/-- C7 for two lines followed by end-of-stream and a line that is never read. -/
theorem C7_processCell_witness :
    ReadResult.isLine (.eof "") = false ∧ demoRegistry.WF ∧ demoRegistry.names.Nodup ∧
    ∃ ac' : allClients Unit Unit,
      (RemoveClient (fun _ => 0) demoRegistry "alpha").result = .ok ac' ∧
      processCell (fun _ => 0) demoRegistry (newRecord "alpha" "S1" 1)
          ([.line "one\n", .line "two\n", .eof "", .line "three\n"]) =
        ⟨[.read 1, .print "one\n\n", .processEvent "alpha" 1 "one\n",
          .read 1, .print "two\n\n", .processEvent "alpha" 1 "two\n",
          .read 1] ++ (RemoveClient (fun _ => 0) demoRegistry "alpha").trace,
          .ok (ac', [.line "three\n"])⟩ :=
  ⟨rfl, by decide, by decide,
    (C7_processCell (fun _ => 0) demoRegistry (newRecord "alpha" "S1" 1)
      ["one\n", "two\n"] (.eof "") [.line "three\n"] rfl (by decide) (by decide)).imp
      (fun _ h => ⟨h.1, h.2.1⟩)⟩

section scanCases
variable {StorageResult SystemResult : Type}

/-- The three possible outcomes of the scan of `AddClient`. -/
theorem AddClient.scan_cases (name : String) (conn : Conn) :
    ∀ l : List (Option (Client StorageResult SystemResult)),
      AddClient.scan name conn l = ⟨[], .ok false⟩ ∨
      AddClient.scan name conn l =
        ⟨[.write conn "Name already exists\n", .close conn], .ok true⟩ ∨
      AddClient.scan name conn l = ⟨[], .error .nilDeref⟩
  | [] => Or.inl rfl
  | none :: _ => Or.inr (Or.inr rfl)
  | some c :: l => by
    by_cases hc : c.Name = name
    · right
      left
      simp [AddClient.scan, hc, Run.ret]
    · have ih := AddClient.scan_cases name conn l
      simpa [AddClient.scan, hc] using ih

end scanCases

/-- C8 (as stated, refuted): in the execution of `AddClient("alpha", "S1", 1)` on
the registry of a freshly started server both bootstrap writes lie between
the acquisition of the lock and its release. -/
theorem C8_writes_after_unlock_counterexample :
    (AddClient (fun _ => 0) emptyRegistry "alpha" "S1" 1).trace =
      [.lock, .readClients, .log "Adding client alpha", .readClients, .writeClients,
        .spawn "alpha" 1, .write 1 "STORAGE_INFO\n", .write 1 "SYSTEM_INFO\n", .unlock] ∧
    writesOutsideLock false (AddClient (fun _ => 0) emptyRegistry "alpha" "S1" 1).trace =
      false := by
  decide

/-- C8 (amended): in every execution of `AddClient` the lock is acquired
first and released last, through the deferred `Unlock`, and is neither
acquired nor released in between; hence every write to the peer connection
(the two bootstrap requests, or the rejection line) happens while the lock is
held. -/
theorem C8_writes_under_lock {StorageResult SystemResult : Type} [Inhabited SystemResult]
    (grow : Nat → Nat) (ac : allClients StorageResult SystemResult)
    (name serial : String) (conn : Conn) :
    (∃ body, (AddClient grow ac name serial conn).trace = .lock :: (body ++ [.unlock]) ∧
      .lock ∉ body ∧ .unlock ∉ body) ∧
    writesUnderLock false (AddClient grow ac name serial conn).trace = true := by
  unfold AddClient
  rcases AddClient.scan_cases name conn ac.Clients.elems with h | h | h
  · rw [h]
    simp only [Run.bind_emit, Run.bind_mk_ok, Run.deferring, Run.ret]
    refine ⟨⟨[.readClients, .log ("Adding client " ++ name), .readClients, .writeClients,
      .spawn name conn, .write conn "STORAGE_INFO\n", .write conn "SYSTEM_INFO\n"],
      by simp, by simp, by simp⟩, ?_⟩
    simp [writesUnderLock]
  · rw [h]
    simp only [Run.bind_emit, Run.bind_mk_ok, Run.deferring, Run.ret]
    refine ⟨⟨[.readClients, .write conn "Name already exists\n", .close conn],
      by simp, by simp, by simp⟩, ?_⟩
    simp [writesUnderLock]
  · rw [h]
    simp only [Run.bind_emit, Run.bind_mk_error, Run.deferring, Run.ret]
    refine ⟨⟨[.readClients], by simp, by simp, by simp⟩, ?_⟩
    simp [writesUnderLock]

/-- On every registry and for every serial, the first effect of
`SendUpdateRequest` is a read of `Clients` with the lock not held. -/
theorem SendUpdateRequest_access_unlocked {StorageResult SystemResult : Type}
    (ac : allClients StorageResult SystemResult) (id : String) :
    accessesUnderLock false (SendUpdateRequest ac id).trace = false := by
  unfold SendUpdateRequest
  simp [accessesUnderLock, Effect.isAccess]

/-- C9 (evaluation at the failing inputs): `SendUpdateRequest` and the three
getters access a collection without holding the lock, whereas `AddClient` and
`RemoveClient` perform all their accesses under the lock. -/
theorem C9_unlocked_accesses :
    (SendUpdateRequest demoRegistry "S2").trace =
      [.readClients, .write 2 "UPDATE_NOW\n"] ∧
    accessesUnderLock false (SendUpdateRequest demoRegistry "S2").trace = false ∧
    (GetActiveClients demoRegistry).trace = [.readClients] ∧
    accessesUnderLock false (GetActiveClients demoRegistry).trace = false ∧
    accessesUnderLock false (GetWaitingClients demoRegistry).trace = false ∧
    accessesUnderLock false (GetAcceptedClients demoRegistry).trace = false ∧
    accessesUnderLock false (AddClient (fun _ => 0) demoRegistry "gamma" "S3" 3).trace = true ∧
    accessesUnderLock false (RemoveClient (fun _ => 0) demoRegistry "alpha").trace = true := by
  decide

end connection

/-! ## Theorems about the certificate paths -/

namespace cert

/-- C10 (evaluation at the failing input): for the directory "certs/", with the
key material missing and every call succeeding, `GenerateCert` creates the two
files under "keys/", while `SetupTLSConfig` loads, before and after the
generation, the two files under "certs/"; the second load does not read the
files just written. -/
theorem C10_paths_differ :
    createdPaths (GenerateCert genOk "certs/").1 =
      ["keys/server-cert.pem", "keys/server-key.pem"] ∧
    loadedPaths (SetupTLSConfig missingThenOk "certs/").1 =
      [("certs/server-cert.pem", "certs/server-key.pem"),
       ("certs/server-cert.pem", "certs/server-key.pem")] ∧
    createdPaths (SetupTLSConfig missingThenOk "certs/").1 ≠
      ["certs/" ++ "server-cert.pem", "certs/" ++ "server-key.pem"] := by
  decide

/-- The paths created by `GenerateCert` do not depend on its argument. -/
theorem GenerateCert_createdPaths_const (dir : String) :
    createdPaths (GenerateCert genOk dir).1 =
      ["keys/server-cert.pem", "keys/server-key.pem"] := by
  simp [GenerateCert, genOk, createdPaths]

/-- Appending the same string on the right is injective. -/
theorem append_right_cancel (a b c : String) (h : a ++ c = b ++ c) : a = b := by
  have h1 : (a ++ c).data = (b ++ c).data := by rw [h]
  simp only [String.data_append] at h1
  exact String.ext (List.append_cancel_right h1)

/-- With every call succeeding, the files `GenerateCert(dir)` creates are the
files `SetupTLSConfig(dir)` loads exactly when `dir` is the string "keys/". -/
theorem createdPaths_eq_loaded_iff (dir : String) :
    createdPaths (GenerateCert genOk dir).1 =
      [dir ++ "server-cert.pem", dir ++ "server-key.pem"] ↔ dir = "keys/" := by
  rw [GenerateCert_createdPaths_const]
  constructor
  · intro h
    have h1 : "keys/" ++ "server-cert.pem" = dir ++ "server-cert.pem" := by
      have := (List.cons.inj h).1
      rw [← this]
      decide
    exact (append_right_cancel _ _ _ h1).symm
  · intro h
    subst h
    decide

end cert
